import Mathlib

/-!
Verification of the backup (recovery) code controller of AuthPlz
(src/modules/2fa/backup/backup.go) against its natural-language design
specification.

The Go source is shallowly embedded below.  Pure helpers become Lean
functions; the Storer (whose implementation is not among the provided
sources) is modelled from the specification's storage contract as a
list-backed store with explicit environmental-failure injection; the
external libraries (NebulousLabs entropy-mnemonics, x/crypto/bcrypt and
crypto/rand) are abstracted as parameters of the model.
-/

namespace AuthPlz

/-- Error values returned by the modelled Go functions. -/
inductive GoErr
  | randErr
  | entropy
  | encoding
  | hashErr
  | storeDup
  | storeFail
  deriving DecidableEq, Repr

/-- Result of a Go call that may panic: either a normal return or a runtime
panic (used for the out-of-range slice in ValidateCode). -/
inductive GoRes (α : Type)
  | panicked
  | ret (a : α)
  deriving DecidableEq, Repr

/-- Model of Go strings.Split(s, " "): split on every single space; the empty
string yields the one-element list [""], exactly as in Go. -/
def splitSp (cs : List Char) (acc : List Char) : List String :=
  match cs with
  | [] => [String.mk acc.reverse]
  | c :: rest =>
    if c = ' ' then String.mk acc.reverse :: splitSp rest []
    else splitSp rest (c :: acc)

/-- Word list of a code string, as Go strings.Split(codeString, " ") produces. -/
def goSplit (s : String) : List String := splitSp s.data []

/-- Model of Go strings.Join(l, " "). -/
def joinSp : List String → String
  | [] => ""
  | [x] => x
  | x :: rest => x ++ " " ++ joinSp rest

/-- Constants of backup.go. -/
def recoveryKeyLen : Nat := 128 / 8

/-- Number of words drawn for the mnemonic code name in backup.go. -/
def recoveryNameLen : Nat := 3

/-- Number of backup keys created per batch in backup.go. -/
def numRecoveryKeys : Nat := 5

/-- Bcrypt cost used by backup.go. -/
def backupHashRounds : Nat := 12

/-- Result of one crypto/rand Read call: the bytes placed in the buffer, the
reported count n and the reported error. -/
structure RandResult where
  bytes : List Nat
  n : Nat
  err : Option GoErr
  deriving DecidableEq, Repr

/-- Random source: the outcome of the idx-th rand.Read call of a run. -/
abbrev RandOracle := Nat → RandResult

/-- Buffer of exactly size bytes as filled by rand.Read (the Go buffer is
allocated at the requested size; missing bytes stay zero). -/
def padTo (size : Nat) (bs : List Nat) : List Nat :=
  bs.take size ++ List.replicate (size - bs.length) 0

/-- Model of cryptoBytes from backup.go.  Faithful to the source: the
bytes-read count n is compared against recoveryKeyLen regardless of the
requested size. -/
def cryptoBytes (o : RandOracle) (idx : Nat) (size : Nat) : Except GoErr (List Nat) :=
  let r := o idx
  match r.err with
  | some e => Except.error e
  | none =>
    if r.n ≠ recoveryKeyLen then Except.error GoErr.entropy
    else Except.ok (padTo size r.bytes)

/-- External library functions used by backup.go (mnemonics and bcrypt),
abstracted: toPhrase is mnemonics.ToPhrase(·, English).String(), fromString
is mnemonics.FromString(·, English), bcryptHash is
bcrypt.GenerateFromPassword and bcryptCompare is
bcrypt.CompareHashAndPassword (none means a match, as a nil Go error). -/
structure Ext where
  toPhrase : List Nat → Except GoErr String
  fromString : String → Except GoErr (List Nat)
  bcryptHash : List Nat → Nat → Except GoErr String
  bcryptCompare : String → List Nat → Option GoErr

/-- BackupKey structure for API use (backup.go). -/
structure BackupKey where
  name : String
  code : String
  hash : String
  deriving DecidableEq, Repr

/-- Modelled from the spec: the BackupCode record owned by the Storer (§3,
§6 of the design spec); the Storer implementation is not among the provided
sources. -/
structure CodeRec where
  user : String
  name : String
  hashedSecret : String
  used : Bool
  deriving DecidableEq, Repr

/-- State of the Storer: the list of persisted code records. -/
abbrev StoreState := List CodeRec

/-- Modelled from the spec: Storer.AddBackupCode (§6) creates a new unused
record and errors on a duplicate name within the user's active set. -/
def addBackupCode (st : StoreState) (user name hash : String) : Except GoErr StoreState :=
  if st.any (fun r => r.user == user && r.name == name && !r.used) then
    Except.error GoErr.storeDup
  else Except.ok (st ++ [⟨user, name, hash, false⟩])

/-- Modelled from the spec: Storer.GetBackupCodes (§6) returns all records of
the user, used and unused. -/
def getBackupCodes (st : StoreState) (user : String) : List CodeRec :=
  st.filter (fun r => r.user == user)

/-- Modelled from the spec: Storer.GetBackupCodeByName (§6), exact match
only; returns the first matching record. -/
def getBackupCodeByName (st : StoreState) (user name : String) : Option CodeRec :=
  st.find? (fun r => r.user == user && r.name == name)

/-- Modelled from the spec: Storer.UpdateBackupCode persisting the record
handed back by ValidateCode with used set.  Design note §9 records that the
source performs this as a plain second step with no conditional guarantee,
so the write is unconditional: the first matching record has its used flag
set. -/
def updateBackupCode : StoreState → String → String → StoreState
  | [], _, _ => []
  | r :: rest, user, name =>
    if r.user == user && r.name == name then { r with used := true } :: rest
    else r :: updateBackupCode rest user name

/-- One iteration of the generation loop of Controller.CreateCodes
(backup.go): draw secret and name entropy (oracle calls 2i and 2i+1),
encode both to phrases, hash the secret bytes. -/
def genKey (ext : Ext) (o : RandOracle) (i : Nat) : Except GoErr BackupKey := do
  let code ← cryptoBytes o (2 * i) recoveryKeyLen
  let name ← cryptoBytes o (2 * i + 1) recoveryNameLen
  let mnemonicCode ← ext.toPhrase code
  let mnemonicName ← ext.toPhrase name
  let hash ← ext.bcryptHash code backupHashRounds
  pure ⟨mnemonicName, mnemonicCode, hash⟩

/-- Generation loop of Controller.CreateCodes: keys for iterations
i, i+1, ..., i+count-1. -/
def genKeysAux (ext : Ext) (o : RandOracle) : Nat → Nat → Except GoErr (List BackupKey)
  | _, 0 => Except.ok []
  | i, count + 1 => do
    let k ← genKey ext o i
    let ks ← genKeysAux ext o (i + 1) count
    pure (k :: ks)

/-- Persistence loop of Controller.CreateCodes: AddBackupCode for each key in
order; env injects an environmental storage failure per call index. -/
def addKeys (env : Nat → Option GoErr) (user : String) :
    StoreState → Nat → List BackupKey → Except GoErr StoreState
  | st, _, [] => Except.ok st
  | st, j, k :: ks =>
    match env j with
    | some e => Except.error e
    | none => do
      let st2 ← addBackupCode st user k.name k.hash
      addKeys env user st2 (j + 1) ks

/-- Model of Controller.CreateCodes (backup.go): generate numRecoveryKeys
keys, then save each to the store; any failure aborts with the error. -/
def createCodes (ext : Ext) (o : RandOracle) (env : Nat → Option GoErr)
    (st : StoreState) (userid : String) : Except GoErr (List BackupKey × StoreState) := do
  let keys ← genKeysAux ext o 0 numRecoveryKeys
  let st2 ← addKeys env userid st 0 keys
  pure (keys, st2)

/-- Model of Controller.IsSupported (backup.go): fetchFail injects an
environmental failure of the GetBackupCodes call, on which the source
returns false; otherwise the source folds over the codes looking for an
unused one. -/
def isSupported (fetchFail : Option GoErr) (st : StoreState) (userid : String) : Bool :=
  match fetchFail with
  | some _ => false
  | none =>
    (getBackupCodes st userid).foldl (fun available c => if !c.used then true else available) false

/-- Loop of Controller.ValidateName (backup.go): first code with the given
name and not used returns (true, nil); otherwise (false, nil). -/
def vnLoop (name : String) : List CodeRec → Bool × Option GoErr
  | [] => (false, none)
  | c :: rest => if c.name == name && !c.used then (true, none) else vnLoop name rest

/-- Model of Controller.ValidateName (backup.go), with the store state
threaded through: the only store call is the read GetBackupCodes, whose
environmental failure is propagated. -/
def validateName (fetchFail : Option GoErr) (st : StoreState) (userid name : String) :
    (Bool × Option GoErr) × StoreState :=
  match fetchFail with
  | some e => ((false, some e), st)
  | none => (vnLoop name (getBackupCodes st userid), st)

/-- Name phrase parsed by Controller.ValidateCode: the first recoveryNameLen
words rejoined. -/
def nameOf (s : String) : String := joinSp ((goSplit s).take recoveryNameLen)

/-- Secret phrase parsed by Controller.ValidateCode: the remaining words
rejoined. -/
def secretOf (s : String) : String := joinSp ((goSplit s).drop recoveryNameLen)

/-- Decoded secret bytes used by Controller.ValidateCode.  The source
discards the mnemonics.FromString error (err is immediately reassigned by
the store fetch), leaving key nil on a failed decode; nil is modelled as
the empty byte list. -/
def keyOf (ext : Ext) (s : String) : List Nat :=
  match ext.fromString (secretOf s) with
  | Except.ok k => k
  | Except.error _ => []

/-- Model of Controller.ValidateCode (backup.go).  fetchFail and updFail
inject environmental failures of the two store calls.  GoRes.panicked
models the Go runtime panic of phrase[:recoveryNameLen] when the split
yields fewer than recoveryNameLen words. -/
def validateCode (ext : Ext) (fetchFail updFail : Option GoErr)
    (st : StoreState) (userid codeString : String) :
    GoRes ((Bool × Option GoErr) × StoreState) :=
  if (goSplit codeString).length < recoveryNameLen then GoRes.panicked
  else
    match fetchFail with
    | some e => GoRes.ret ((false, some e), st)
    | none =>
      match getBackupCodeByName st userid (nameOf codeString) with
      | none => GoRes.ret ((false, none), st)
      | some code =>
        if code.name != nameOf codeString || code.used then GoRes.ret ((false, none), st)
        else
          match ext.bcryptCompare code.hashedSecret (keyOf ext codeString) with
          | some _ => GoRes.ret ((false, none), st)
          | none =>
            match updFail with
            | some e => GoRes.ret ((false, some e), st)
            | none => GoRes.ret ((true, none), updateBackupCode st userid (nameOf codeString))

/-! Concrete instantiation of the external libraries and random source, used
to evaluate the model on concrete inputs. -/

/-- Dot-joined rendering of a list of strings. -/
def joinDot : List String → String
  | [] => ""
  | [x] => x
  | x :: rest => x ++ "." ++ joinDot rest

/-- Injective rendering of a byte buffer as a string of decimal numbers. -/
def encB (bs : List Nat) : String := joinDot (bs.map Nat.repr)

/-- Concrete external-library instantiation: phrases are decimal renderings,
the hash of a buffer is its rendering prefixed with '#', comparison checks
that shape, and only the word "d" decodes (to the buffer [5]). -/
def extC : Ext where
  toPhrase bs := Except.ok (encB bs)
  fromString s := if s = "d" then Except.ok [5] else Except.error GoErr.encoding
  bcryptHash bs _ := Except.ok ("#" ++ encB bs)
  bcryptCompare h k := if h == "#" ++ encB k then none else some GoErr.hashErr

/-- Store with one fresh code of user "u" named "a b c" whose hash matches
the decoding of "d" under extC. -/
def st0W : StoreState := [⟨"u", "a b c", "#5", false⟩]

/-- The store st0W after its single code has been consumed. -/
def st1W : StoreState := [⟨"u", "a b c", "#5", true⟩]

/-- Random source whose even calls (secret draws) return an empty buffer and
whose odd calls (name draws) return the call index, always reporting 16
bytes read. -/
def C2o : RandOracle := fun idx => if idx % 2 == 0 then ⟨[], 16, none⟩ else ⟨[idx], 16, none⟩

/-- Environment with no storage failures. -/
def C2env : Nat → Option GoErr := fun _ => none

/-- Random source conforming to the crypto/rand contract for a 3-byte read. -/
def oW : RandOracle := fun _ => ⟨[1, 2, 3], 3, none⟩

/-- Secret phrase produced by extC for every secret draw of C2o: the 16-byte
buffer left all zero. -/
def C2code : String := "0.0.0.0.0.0.0.0.0.0.0.0.0.0.0.0"

/-- Hash produced by extC for every secret draw of C2o. -/
def C2hash : String := "#0.0.0.0.0.0.0.0.0.0.0.0.0.0.0.0"

/-- Keys returned by createCodes under extC and C2o: distinct names, but one
shared code value, and the code field carries the secret phrase alone. -/
def C2keysVal : List BackupKey :=
  [⟨"1.0.0", C2code, C2hash⟩, ⟨"3.0.0", C2code, C2hash⟩, ⟨"5.0.0", C2code, C2hash⟩,
   ⟨"7.0.0", C2code, C2hash⟩, ⟨"9.0.0", C2code, C2hash⟩]

/-- Store contents persisted by that createCodes run. -/
def C2stVal : StoreState :=
  [⟨"u", "1.0.0", C2hash, false⟩, ⟨"u", "3.0.0", C2hash, false⟩,
   ⟨"u", "5.0.0", C2hash, false⟩, ⟨"u", "7.0.0", C2hash, false⟩,
   ⟨"u", "9.0.0", C2hash, false⟩]

/-- Per-record monotonicity: identity fields are preserved and the used flag
never reverts from true to false. -/
def RecMono (a b : CodeRec) : Prop :=
  b.user = a.user ∧ b.name = a.name ∧ b.hashedSecret = a.hashedSecret ∧
    (a.used = true → b.used = true)

/-- Store monotonicity: every record of the earlier state survives (possibly
with its used flag raised) and the state may only grow by appended records. -/
def UsedMono (st st2 : StoreState) : Prop :=
  ∃ pre suf, st2 = pre ++ suf ∧ List.Forall₂ RecMono st pre

/-- Program counter of one thread executing the body of
Controller.ValidateCode, at the granularity of its Storer interactions:
it has not yet fetched, it holds the fetched record, or it has finished
with a boolean outcome. -/
inductive TState
  | start
  | fetched (c : Option CodeRec)
  | done (b : Bool)
  deriving DecidableEq, Repr

/-- One atomic Storer interaction of a thread running ValidateCode for user
u with the already-parsed name phrase and decoded key: from start it
performs the GetBackupCodeByName read; from the fetched record it performs
the local checks of the source (name equality, used flag, bcrypt compare)
and, on a full match, the UpdateBackupCode write. -/
def vcStep (ext : Ext) (u name : String) (key : List Nat) (t : TState) (st : StoreState) :
    TState × StoreState :=
  match t with
  | TState.start => (TState.fetched (getBackupCodeByName st u name), st)
  | TState.fetched none => (TState.done false, st)
  | TState.fetched (some code) =>
    if code.name != name || code.used then (TState.done false, st)
    else
      match ext.bcryptCompare code.hashedSecret key with
      | some _ => (TState.done false, st)
      | none => (TState.done true, updateBackupCode st u name)
  | TState.done b => (TState.done b, st)

/-- Interleaved execution of two concurrent ValidateCode calls for the same
user and code string: the schedule picks which thread performs its next
Storer interaction (true = first thread). -/
def runSched (ext : Ext) (u name : String) (key : List Nat) :
    List Bool → TState × TState × StoreState → TState × TState × StoreState
  | [], s => s
  | pick :: rest, (ta, tb, st) =>
    if pick then
      let p := vcStep ext u name key ta st
      runSched ext u name key rest (p.1, tb, p.2)
    else
      let p := vcStep ext u name key tb st
      runSched ext u name key rest (ta, p.1, p.2)

/-! Helper lemmas. -/

/-- Fields of a record found by name: it belongs to the user and carries the
looked-up name. -/
lemma getByName_fields (st : StoreState) (u n : String) (r : CodeRec)
    (h : getBackupCodeByName st u n = some r) : r.user = u ∧ r.name = n := by
  unfold getBackupCodeByName at h
  have hp := List.find?_some h
  simp only [Bool.and_eq_true, beq_iff_eq] at hp
  exact hp

/-- A record found by name is a member of the store. -/
lemma getByName_mem (st : StoreState) (u n : String) (r : CodeRec)
    (h : getBackupCodeByName st u n = some r) : r ∈ st := by
  unfold getBackupCodeByName at h
  exact List.mem_of_find?_eq_some h

/-- After the mark-used write, the lookup finds the same record with its
used flag set. -/
lemma getByName_update (st : StoreState) (u n : String) (r : CodeRec)
    (h : getBackupCodeByName st u n = some r) :
    getBackupCodeByName (updateBackupCode st u n) u n = some { r with used := true } := by
  induction st with
  | nil => simp [getBackupCodeByName] at h
  | cons c rest ih =>
    unfold getBackupCodeByName at h ⊢
    unfold updateBackupCode
    by_cases hc : (c.user == u && c.name == n) = true
    · have hf : List.find? (fun r2 => r2.user == u && r2.name == n) (c :: rest) = some c :=
        List.find?_cons_of_pos rest hc
      rw [hf] at h
      injection h with h
      subst h
      rw [if_pos hc]
      have hc2 : (({ c with used := true } : CodeRec).user == u
          && ({ c with used := true } : CodeRec).name == n) = true := hc
      exact List.find?_cons_of_pos rest hc2
    · have hf : List.find? (fun r2 => r2.user == u && r2.name == n) (c :: rest)
          = List.find? (fun r2 => r2.user == u && r2.name == n) rest :=
        List.find?_cons_of_neg rest hc
      rw [hf] at h
      rw [if_neg hc]
      have hf2 : List.find? (fun r2 => r2.user == u && r2.name == n)
            (c :: updateBackupCode rest u n)
          = List.find? (fun r2 => r2.user == u && r2.name == n) (updateBackupCode rest u n) :=
        List.find?_cons_of_neg _ hc
      rw [hf2]
      exact ih h

/-- The IsSupported fold computes the disjunction of the accumulator with
"some code is unused". -/
lemma foldl_avail (l : List CodeRec) (b : Bool) :
    l.foldl (fun available c => if !c.used then true else available) b
      = (b || l.any fun c => !c.used) := by
  induction l generalizing b with
  | nil => simp
  | cons c rest ih =>
    simp only [List.foldl_cons, List.any_cons]
    rw [ih]
    cases hc : c.used <;> simp

/-- The ValidateName loop returns (true, nil) exactly when an unused record
with the name is present, and never returns an error. -/
lemma vnLoop_eq (n : String) (l : List CodeRec) :
    vnLoop n l = (decide (∃ r ∈ l, r.name = n ∧ r.used = false), none) := by
  induction l with
  | nil => simp [vnLoop]
  | cons c rest ih =>
    simp only [vnLoop, ih]
    by_cases h : c.name = n
    · cases hc : c.used <;> simp [h, hc]
    · simp [h]

/-- ValidateName leaves the store state unchanged (its only store call is
the read GetBackupCodes). -/
lemma validateName_state (f : Option GoErr) (st : StoreState) (u n : String) :
    (validateName f st u n).2 = st := by
  cases f <;> rfl

/-! Claims C3, C4, C7, C8, C9. -/

/-- C3: the claim that ValidateCode terminates normally on every input is
violated by the code: the source slices phrase[:recoveryNameLen] without a
bounds check, so an input with fewer than three space-separated words makes
the Go slice expression panic.  The model evaluates to the panic outcome at
the concrete failing input (user "alice", code string "justtwo words"). -/
theorem validate_code_short_input_panics :
    validateCode extC none none st0W "alice" "justtwo words" = GoRes.panicked := by
  decide

/-- C4: for every requested size other than recoveryKeyLen, cryptoBytes
returns an error even when the random source succeeds and fills the whole
buffer (reporting n = size), because the source compares the bytes-read
count against recoveryKeyLen instead of size; and a failing random source
also yields an error, so the name-size draw never succeeds. -/
theorem crypto_bytes_entropy_bug (o : RandOracle) (idx size : Nat)
    (hsize : size ≠ recoveryKeyLen) :
    ((o idx).err = none → (o idx).n = size → cryptoBytes o idx size = Except.error GoErr.entropy) ∧
    (∀ e, (o idx).err = some e → cryptoBytes o idx size = Except.error e) := by
  constructor
  · intro he hn
    simp [cryptoBytes, he, hn, hsize]
  · intro e he
    simp [cryptoBytes, he]

/-- Witness for C4: a conforming 3-byte draw (the name buffer of
CreateCodes) yields the entropy error. -/
theorem crypto_bytes_entropy_bug_witness :
    cryptoBytes oW 0 recoveryNameLen = Except.error GoErr.entropy :=
  (crypto_bytes_entropy_bug oW 0 recoveryNameLen (by decide)).1 rfl rfl

/-- C7: IsSupported returns true exactly when the fetch succeeds and some
fetched code of the user is unused; a failing fetch yields false rather
than a propagated error. -/
theorem is_supported_spec (f : Option GoErr) (st : StoreState) (u : String) :
    isSupported f st u = decide (f = none ∧ ∃ r ∈ getBackupCodes st u, r.used = false) := by
  cases f with
  | some e => simp [isSupported]
  | none =>
    simp only [isSupported, foldl_avail, Bool.false_or]
    rw [Bool.eq_iff_iff]
    simp

/-- C8: when the fetch succeeds, ValidateName returns (true, nil) exactly
when some record of the user carries the name and is unused, and otherwise
(false, nil); when the fetch fails, the storage error is propagated. -/
theorem validate_name_spec (f : Option GoErr) (st : StoreState) (u n : String) :
    validateName f st u n =
      match f with
      | some e => ((false, some e), st)
      | none => ((decide (∃ r ∈ getBackupCodes st u, r.name = n ∧ r.used = false), none), st) := by
  cases f with
  | some e => rfl
  | none => simp only [validateName, vnLoop_eq]

/-- C9: ValidateName never mutates the store: the full record list
(including every used flag, name and hashed secret) is returned unchanged
for both outcomes. -/
theorem validate_name_no_mutation (f : Option GoErr) (st : StoreState) (u n : String) :
    (validateName f st u n).2 = st :=
  validateName_state f st u n

/-! Inversion and frame lemmas for ValidateCode. -/

/-- Inversion of a successful ValidateCode run: the split succeeded, both
store calls succeeded, the looked-up record matched, was unused, verified
against the decoded key, and the resulting state is the mark-used write. -/
lemma validate_code_ret_true (ext : Ext) (f g : Option GoErr) (st st2 : StoreState)
    (u s : String) (e : Option GoErr)
    (h : validateCode ext f g st u s = GoRes.ret ((true, e), st2)) :
    f = none ∧ g = none ∧ e = none ∧ ¬ (goSplit s).length < recoveryNameLen ∧
    ∃ r, getBackupCodeByName st u (nameOf s) = some r ∧ r.user = u ∧
      r.name = nameOf s ∧ r.used = false ∧
      ext.bcryptCompare r.hashedSecret (keyOf ext s) = none ∧
      st2 = updateBackupCode st u (nameOf s) := by
  unfold validateCode at h
  by_cases hlen : (goSplit s).length < recoveryNameLen
  · rw [if_pos hlen] at h
    exact absurd h (by simp)
  · rw [if_neg hlen] at h
    cases f with
    | some e2 => simp at h
    | none =>
      cases hfind : getBackupCodeByName st u (nameOf s) with
      | none => rw [hfind] at h; simp at h
      | some r =>
        rw [hfind] at h
        have h2 : (if (r.name != nameOf s || r.used) = true then GoRes.ret ((false, none), st)
            else
              match ext.bcryptCompare r.hashedSecret (keyOf ext s) with
              | some _ => GoRes.ret ((false, none), st)
              | none =>
                match g with
                | some e2 => GoRes.ret ((false, some e2), st)
                | none =>
                  GoRes.ret ((true, none), updateBackupCode st u (nameOf s)))
            = GoRes.ret ((true, e), st2) := h
        by_cases hcond : (r.name != nameOf s || r.used) = true
        · rw [if_pos hcond] at h2
          simp at h2
        · rw [if_neg hcond] at h2
          cases hcm : ext.bcryptCompare r.hashedSecret (keyOf ext s) with
          | some e2 => rw [hcm] at h2; simp at h2
          | none =>
            rw [hcm] at h2
            cases g with
            | some e2 => simp at h2
            | none =>
              have h3 : GoRes.ret ((true, none), updateBackupCode st u (nameOf s))
                  = GoRes.ret ((true, e), st2) := h2
              injection h3 with h4
              injection h4 with h5 h6
              injection h5 with h7 h8
              have hcond2 : r.name = nameOf s ∧ r.used = false := by
                simp only [Bool.or_eq_true, not_or, bne_iff_ne, ne_eq, not_not,
                  Bool.not_eq_true] at hcond
                exact hcond
              exact ⟨rfl, rfl, h8.symm, hlen,
                r, rfl, (getByName_fields st u (nameOf s) r hfind).1,
                hcond2.1, hcond2.2, hcm, h6.symm⟩

lemma recMono_refl (a : CodeRec) : RecMono a a := ⟨rfl, rfl, rfl, id⟩

lemma forall₂_recMono_refl (st : StoreState) : List.Forall₂ RecMono st st := by
  induction st with
  | nil => exact List.Forall₂.nil
  | cons a l ih => exact List.Forall₂.cons (recMono_refl a) ih

lemma usedMono_refl (st : StoreState) : UsedMono st st :=
  ⟨st, [], by simp, forall₂_recMono_refl st⟩

lemma usedMono_append (st suf : StoreState) : UsedMono st (st ++ suf) :=
  ⟨st, suf, rfl, forall₂_recMono_refl st⟩

lemma usedMono_update (st : StoreState) (u n : String) :
    UsedMono st (updateBackupCode st u n) := by
  refine ⟨updateBackupCode st u n, [], by simp, ?_⟩
  induction st with
  | nil => exact List.Forall₂.nil
  | cons c rest ih =>
    unfold updateBackupCode
    by_cases hc : (c.user == u && c.name == n) = true
    · rw [if_pos hc]
      exact List.Forall₂.cons ⟨rfl, rfl, rfl, fun _ => rfl⟩ (forall₂_recMono_refl rest)
    · rw [if_neg hc]
      exact List.Forall₂.cons (recMono_refl c) ih

/-- Any normal return of ValidateCode leaves the state unchanged or performs
exactly the mark-used write. -/
lemma validate_code_state (ext : Ext) (f g : Option GoErr) (st : StoreState)
    (u s : String) (res : Bool × Option GoErr) (st2 : StoreState)
    (h : validateCode ext f g st u s = GoRes.ret (res, st2)) :
    st2 = st ∨ st2 = updateBackupCode st u (nameOf s) := by
  unfold validateCode at h
  by_cases hlen : (goSplit s).length < recoveryNameLen
  · rw [if_pos hlen] at h
    exact absurd h (by simp)
  · rw [if_neg hlen] at h
    cases f with
    | some e2 =>
      have h2 : GoRes.ret ((false, some e2), st) = GoRes.ret (res, st2) := h
      simp only [GoRes.ret.injEq, Prod.mk.injEq] at h2
      exact Or.inl h2.2.symm
    | none =>
      cases hfind : getBackupCodeByName st u (nameOf s) with
      | none =>
        rw [hfind] at h
        have h2 : GoRes.ret ((false, none), st) = GoRes.ret (res, st2) := h
        simp only [GoRes.ret.injEq, Prod.mk.injEq] at h2
        exact Or.inl h2.2.symm
      | some r =>
        rw [hfind] at h
        have h2 : (if (r.name != nameOf s || r.used) = true then GoRes.ret ((false, none), st)
            else
              match ext.bcryptCompare r.hashedSecret (keyOf ext s) with
              | some _ => GoRes.ret ((false, none), st)
              | none =>
                match g with
                | some e2 => GoRes.ret ((false, some e2), st)
                | none =>
                  GoRes.ret ((true, none), updateBackupCode st u (nameOf s)))
            = GoRes.ret (res, st2) := h
        by_cases hcond : (r.name != nameOf s || r.used) = true
        · rw [if_pos hcond] at h2
          simp only [GoRes.ret.injEq, Prod.mk.injEq] at h2
          exact Or.inl h2.2.symm
        · rw [if_neg hcond] at h2
          cases hcm : ext.bcryptCompare r.hashedSecret (keyOf ext s) with
          | some e2 =>
            rw [hcm] at h2
            simp at h2
            exact Or.inl h2.2.symm
          | none =>
            rw [hcm] at h2
            cases g with
            | some e2 =>
              have h3 : GoRes.ret ((false, some e2), st) = GoRes.ret (res, st2) := h2
              simp only [GoRes.ret.injEq, Prod.mk.injEq] at h3
              exact Or.inl h3.2.symm
            | none =>
              have h3 : GoRes.ret ((true, none), updateBackupCode st u (nameOf s))
                  = GoRes.ret (res, st2) := h2
              simp only [GoRes.ret.injEq, Prod.mk.injEq] at h3
              exact Or.inr h3.2.symm

/-- Every normal ValidateCode return is used-monotone on the store. -/
lemma validate_code_mono (ext : Ext) (f g : Option GoErr) (st : StoreState)
    (u s : String) (res : Bool × Option GoErr) (st2 : StoreState)
    (h : validateCode ext f g st u s = GoRes.ret (res, st2)) : UsedMono st st2 := by
  rcases validate_code_state ext f g st u s res st2 h with h2 | h2
  · exact h2 ▸ usedMono_refl st
  · exact h2 ▸ usedMono_update st u (nameOf s)

/-! Lemmas about the CreateCodes pipeline. -/

lemma bind_ok {α β : Type} (a : α) (f : α → Except GoErr β) :
    Except.ok a >>= f = f a := rfl

lemma bind_error {α β : Type} (e : GoErr) (f : α → Except GoErr β) :
    (Except.error e : Except GoErr α) >>= f = Except.error e := rfl

/-- A key produced by one generation iteration carries the phrase of its
secret buffer as its code and the hash of the same buffer as its hash: the
name phrase is not part of the code field. -/
lemma genKey_ok (ext : Ext) (o : RandOracle) (i : Nat) (k : BackupKey)
    (h : genKey ext o i = Except.ok k) :
    ∃ sb, ext.toPhrase sb = Except.ok k.code ∧
      ext.bcryptHash sb backupHashRounds = Except.ok k.hash := by
  unfold genKey at h
  cases h1 : cryptoBytes o (2 * i) recoveryKeyLen with
  | error e => simp only [h1, bind_error] at h; exact Except.noConfusion h
  | ok code =>
    simp only [h1, bind_ok] at h
    cases h2 : cryptoBytes o (2 * i + 1) recoveryNameLen with
    | error e => simp only [h2, bind_error] at h; exact Except.noConfusion h
    | ok namebytes =>
      simp only [h2, bind_ok] at h
      cases h3 : ext.toPhrase code with
      | error e => simp only [h3, bind_error] at h; exact Except.noConfusion h
      | ok mc =>
        simp only [h3, bind_ok] at h
        cases h4 : ext.toPhrase namebytes with
        | error e => simp only [h4, bind_error] at h; exact Except.noConfusion h
        | ok mn =>
          simp only [h4, bind_ok] at h
          cases h5 : ext.bcryptHash code backupHashRounds with
          | error e => simp only [h5, bind_error] at h; exact Except.noConfusion h
          | ok hs =>
            simp only [h5, bind_ok] at h
            have h6 : Except.ok (⟨mn, mc, hs⟩ : BackupKey) = Except.ok k := h
            injection h6 with h7
            exact ⟨code, by rw [← h7]; exact h3, by rw [← h7]; exact h5⟩

/-- The generation loop, when it succeeds, produces exactly count keys and
each carries the phrase and hash of one secret buffer. -/
lemma genKeysAux_ok (ext : Ext) (o : RandOracle) :
    ∀ (count i : Nat) (keys : List BackupKey), genKeysAux ext o i count = Except.ok keys →
    keys.length = count ∧ ∀ k ∈ keys, ∃ sb, ext.toPhrase sb = Except.ok k.code ∧
      ext.bcryptHash sb backupHashRounds = Except.ok k.hash := by
  intro count
  induction count with
  | zero =>
    intro i keys h
    have h2 : Except.ok ([] : List BackupKey) = Except.ok keys := h
    injection h2 with h3
    subst h3
    exact ⟨rfl, by intro k hk; exact absurd hk (List.not_mem_nil k)⟩
  | succ c ih =>
    intro i keys h
    unfold genKeysAux at h
    cases h1 : genKey ext o i with
    | error e => simp only [h1, bind_error] at h; exact Except.noConfusion h
    | ok k =>
      simp only [h1, bind_ok] at h
      cases h2 : genKeysAux ext o (i + 1) c with
      | error e => simp only [h2, bind_error] at h; exact Except.noConfusion h
      | ok ks =>
        simp only [h2, bind_ok] at h
        have h3 : Except.ok (k :: ks) = Except.ok keys := h
        injection h3 with h4
        subst h4
        obtain ⟨hlen, hall⟩ := ih (i + 1) ks h2
        refine ⟨by simp [hlen], ?_⟩
        intro k2 hk2
        rcases List.mem_cons.mp hk2 with rfl | hk3
        · exact genKey_ok ext o i k2 h1
        · exact hall k2 hk3

/-- The persistence loop, when it succeeds, appends exactly the unused
records of the given keys to the store. -/
lemma addKeys_ok_append (env : Nat → Option GoErr) (u : String) :
    ∀ (ks : List BackupKey) (st : StoreState) (j : Nat) (st2 : StoreState),
    addKeys env u st j ks = Except.ok st2 →
    st2 = st ++ ks.map (fun k => (⟨u, k.name, k.hash, false⟩ : CodeRec)) := by
  intro ks
  induction ks with
  | nil =>
    intro st j st2 h
    have h2 : Except.ok st = Except.ok st2 := h
    injection h2 with h3
    subst h3
    simp
  | cons k ks ih =>
    intro st j st2 h
    unfold addKeys at h
    cases he : env j with
    | some e =>
      rw [he] at h
      have h2 : (Except.error e : Except GoErr StoreState) = Except.ok st2 := h
      exact Except.noConfusion h2
    | none =>
      rw [he] at h
      have h2 : (addBackupCode st u k.name k.hash >>=
          fun st3 => addKeys env u st3 (j + 1) ks) = Except.ok st2 := h
      unfold addBackupCode at h2
      by_cases hdup : (st.any fun r => r.user == u && r.name == k.name && !r.used) = true
      · rw [if_pos hdup, bind_error] at h2
        exact Except.noConfusion h2
      · rw [if_neg hdup, bind_ok] at h2
        have h3 : addKeys env u (st ++ [⟨u, k.name, k.hash, false⟩]) (j + 1) ks
            = Except.ok st2 := h2
        have h4 := ih (st ++ [⟨u, k.name, k.hash, false⟩]) (j + 1) st2 h3
        rw [h4]
        simp

/-- No key persisted by a successful persistence loop names an active record
of the starting store. -/
lemma addKeys_ok_names (env : Nat → Option GoErr) (u : String) :
    ∀ (ks : List BackupKey) (st : StoreState) (j : Nat) (st2 : StoreState),
    addKeys env u st j ks = Except.ok st2 →
    ∀ k ∈ ks, (st.any fun r => r.user == u && r.name == k.name && !r.used) = false := by
  intro ks
  induction ks with
  | nil => intro st j st2 h k hk; exact absurd hk (List.not_mem_nil k)
  | cons k0 ks ih =>
    intro st j st2 h k hk
    unfold addKeys at h
    cases he : env j with
    | some e =>
      rw [he] at h
      have h2 : (Except.error e : Except GoErr StoreState) = Except.ok st2 := h
      exact Except.noConfusion h2
    | none =>
      rw [he] at h
      have h2 : (addBackupCode st u k0.name k0.hash >>=
          fun st3 => addKeys env u st3 (j + 1) ks) = Except.ok st2 := h
      unfold addBackupCode at h2
      by_cases hdup : (st.any fun r => r.user == u && r.name == k0.name && !r.used) = true
      · rw [if_pos hdup, bind_error] at h2
        exact Except.noConfusion h2
      · rw [if_neg hdup, bind_ok] at h2
        have h3 : addKeys env u (st ++ [⟨u, k0.name, k0.hash, false⟩]) (j + 1) ks
            = Except.ok st2 := h2
        rcases List.mem_cons.mp hk with rfl | hk2
        · exact Bool.eq_false_iff.mpr hdup
        · have h4 := ih (st ++ [⟨u, k0.name, k0.hash, false⟩]) (j + 1) st2 h3 k hk2
          simp only [List.any_append, Bool.or_eq_false_iff] at h4
          exact h4.1

/-- A successful persistence loop implies pairwise-distinct key names: every
persisted record is active, so a duplicate later in the batch would have
made its AddBackupCode call fail. -/
lemma addKeys_ok_nodup (env : Nat → Option GoErr) (u : String) :
    ∀ (ks : List BackupKey) (st : StoreState) (j : Nat) (st2 : StoreState),
    addKeys env u st j ks = Except.ok st2 → (ks.map BackupKey.name).Nodup := by
  intro ks
  induction ks with
  | nil => intro st j st2 h; simp
  | cons k0 ks ih =>
    intro st j st2 h
    unfold addKeys at h
    cases he : env j with
    | some e =>
      rw [he] at h
      have h2 : (Except.error e : Except GoErr StoreState) = Except.ok st2 := h
      exact Except.noConfusion h2
    | none =>
      rw [he] at h
      have h2 : (addBackupCode st u k0.name k0.hash >>=
          fun st3 => addKeys env u st3 (j + 1) ks) = Except.ok st2 := h
      unfold addBackupCode at h2
      by_cases hdup : (st.any fun r => r.user == u && r.name == k0.name && !r.used) = true
      · rw [if_pos hdup, bind_error] at h2
        exact Except.noConfusion h2
      · rw [if_neg hdup, bind_ok] at h2
        have h3 : addKeys env u (st ++ [⟨u, k0.name, k0.hash, false⟩]) (j + 1) ks
            = Except.ok st2 := h2
        have htail := ih _ _ _ h3
        have hnames := addKeys_ok_names env u ks _ _ _ h3
        simp only [List.map_cons, List.nodup_cons]
        refine ⟨?_, htail⟩
        intro hmem
        rcases List.mem_map.mp hmem with ⟨k2, hk2, hname⟩
        have h4 := hnames k2 hk2
        simp only [List.any_append, Bool.or_eq_false_iff] at h4
        have h5 := h4.2
        simp at h5
        exact h5 hname.symm

/-- Inversion of a successful CreateCodes run into its generation and
persistence components. -/
lemma createCodes_ok (ext : Ext) (o : RandOracle) (env : Nat → Option GoErr)
    (st : StoreState) (u : String) (keys : List BackupKey) (st2 : StoreState)
    (h : createCodes ext o env st u = Except.ok (keys, st2)) :
    genKeysAux ext o 0 numRecoveryKeys = Except.ok keys ∧
    addKeys env u st 0 keys = Except.ok st2 := by
  unfold createCodes at h
  cases h1 : genKeysAux ext o 0 numRecoveryKeys with
  | error e =>
    rw [h1, bind_error] at h
    exact Except.noConfusion h
  | ok ks =>
    rw [h1, bind_ok] at h
    have h2 : (addKeys env u st 0 ks >>=
        fun st3 => pure (ks, st3)) = Except.ok (keys, st2) := h
    cases h3 : addKeys env u st 0 ks with
    | error e =>
      rw [h3, bind_error] at h2
      exact Except.noConfusion h2
    | ok st3 =>
      rw [h3, bind_ok] at h2
      have h4 : Except.ok ((ks, st3) : List BackupKey × StoreState)
          = Except.ok (keys, st2) := h2
      injection h4 with h5
      injection h5 with h6 h7
      subst h6
      subst h7
      exact ⟨rfl, h3⟩

/-! Claim C5. -/

/-- C5: an input whose secret phrase fails mnemonic decoding is treated as a
plain non-match (false, nil) whenever the store fetch itself does not fail:
the decode error is discarded by the source (its err variable is
immediately reassigned) and the nil key cannot verify against any stored
bcrypt hash, so the caller cannot distinguish a malformed phrase from a
wrong-but-well-formed one. -/
theorem validate_code_decode_absorbed (ext : Ext) (g : Option GoErr)
    (st : StoreState) (u s : String) (e : GoErr)
    (hlen : ¬ (goSplit s).length < recoveryNameLen)
    (hdec : ext.fromString (secretOf s) = Except.error e)
    (hcmp : ∀ r ∈ st, ext.bcryptCompare r.hashedSecret [] ≠ none) :
    validateCode ext none g st u s = GoRes.ret ((false, none), st) := by
  have hkey : keyOf ext s = [] := by simp [keyOf, hdec]
  unfold validateCode
  rw [if_neg hlen]
  cases hfind : getBackupCodeByName st u (nameOf s) with
  | none => rfl
  | some r =>
    have hur := getByName_fields st u (nameOf s) r hfind
    by_cases hused : r.used = true
    · simp [hused]
    · have hused2 : r.used = false := Bool.eq_false_iff.mpr hused
      rw [hkey]
      cases hcm : ext.bcryptCompare r.hashedSecret [] with
      | none => exact absurd hcm (hcmp r (getByName_mem st u (nameOf s) r hfind))
      | some e2 => simp [hur.2, hused2, hcm]

/-- Witness for C5: under the concrete externals, the phrase "a b c e" (whose
secret word "e" fails decoding) yields (false, nil) against the store
holding the fresh code named "a b c". -/
theorem validate_code_decode_absorbed_witness :
    validateCode extC none none st0W "u" "a b c e" = GoRes.ret ((false, none), st0W) :=
  validate_code_decode_absorbed extC none st0W "u" "a b c e" GoErr.encoding
    (by decide) (by rfl) (by decide)

/-! Claim C1. -/

/-- C1: a ValidateCode call that returns true performs exactly the mark-used
write, after which the consumed record is present with used = true and a
repeated call with the same code string on the resulting state returns
(false, nil); moreover every ValidateCode return and every successful
CreateCodes run is used-monotone on the store (identity fields preserved,
used never reverts to false), and ValidateName leaves the state untouched,
so the used flag of a record is raised at most once and never reset. -/
theorem validate_code_exactly_once (ext : Ext) (st st2 : StoreState) (u s : String)
    (h : validateCode ext none none st u s = GoRes.ret ((true, none), st2)) :
    st2 = updateBackupCode st u (nameOf s) ∧
    (∃ r2 ∈ st2, r2.user = u ∧ r2.name = nameOf s ∧ r2.used = true) ∧
    validateCode ext none none st2 u s = GoRes.ret ((false, none), st2) ∧
    (∀ f g st3 u2 s2 res st4, validateCode ext f g st3 u2 s2 = GoRes.ret (res, st4) →
      UsedMono st3 st4) ∧
    (∀ o env st3 u2 out, createCodes ext o env st3 u2 = Except.ok out → UsedMono st3 out.2) ∧
    (∀ f st3 u2 n2, (validateName f st3 u2 n2).2 = st3) := by
  obtain ⟨-, -, -, hlen, r, hfind, hu, hn, hused, hcm, hst⟩ :=
    validate_code_ret_true ext none none st st2 u s none h
  have hupd := getByName_update st u (nameOf s) r hfind
  refine ⟨hst, ?_, ?_, ?_, ?_, ?_⟩
  · refine ⟨{ r with used := true }, ?_, hu, hn, rfl⟩
    rw [hst]
    exact getByName_mem _ u (nameOf s) _ hupd
  · unfold validateCode
    rw [if_neg hlen, hst, hupd]
    simp
  · intro f g st3 u2 s2 res st4 h2
    exact validate_code_mono ext f g st3 u2 s2 res st4 h2
  · intro o env st3 u2 out h2
    rcases out with ⟨keys2, st5⟩
    obtain ⟨-, ha⟩ := createCodes_ok ext o env st3 u2 keys2 st5 h2
    have h3 := addKeys_ok_append env u2 keys2 st3 0 st5 ha
    show UsedMono st3 st5
    rw [h3]
    exact usedMono_append st3 _
  · intro f st3 u2 n2
    exact validateName_state f st3 u2 n2

/-- Witness for C1: consuming the fresh code "a b c d" of user "u" succeeds
once and the repeated call on the resulting store returns (false, nil). -/
theorem validate_code_exactly_once_witness :
    validateCode extC none none st1W "u" "a b c d" = GoRes.ret ((false, none), st1W) :=
  (validate_code_exactly_once extC st0W st1W "u" "a b c d" (by decide)).2.2.1

/-! Claim C6. -/

/-- C6 counterexample: with the name, unused flag and hash all matching but
the mark-used update failing, ValidateCode returns the storage error, not a
nil error as the claim states. -/
theorem validate_code_update_fail_counterexample :
    validateCode extC none (some GoErr.storeFail) st0W "u" "a b c d"
      = GoRes.ret ((false, some GoErr.storeFail), st0W) ∧
    GoRes.ret ((false, some GoErr.storeFail), st0W)
      ≠ GoRes.ret ((false, (none : Option GoErr)), st0W) :=
  ⟨by decide, by decide⟩

/-- C6 amended: when the looked-up record matches (name found, unused, hash
verified) but the mark-used update fails, ValidateCode returns false with
the storage error propagated (not a nil error); and in every case a true
result is returned only after the used-flag write has been applied to the
store, leaving the consumed record present with used = true. -/
theorem validate_code_update_fail_spec (ext : Ext) (st : StoreState) (u s : String)
    (r : CodeRec) (e : GoErr)
    (hlen : ¬ (goSplit s).length < recoveryNameLen)
    (hfind : getBackupCodeByName st u (nameOf s) = some r)
    (hused : r.used = false)
    (hcm : ext.bcryptCompare r.hashedSecret (keyOf ext s) = none) :
    validateCode ext none (some e) st u s = GoRes.ret ((false, some e), st) ∧
    (∀ f g st3 u2 s2 e2 st4,
      validateCode ext f g st3 u2 s2 = GoRes.ret ((true, e2), st4) →
      e2 = none ∧ st4 = updateBackupCode st3 u2 (nameOf s2) ∧
      ∃ r2 ∈ st4, r2.user = u2 ∧ r2.name = nameOf s2 ∧ r2.used = true) := by
  constructor
  · have hn := (getByName_fields st u (nameOf s) r hfind).2
    unfold validateCode
    rw [if_neg hlen, hfind]
    simp [hn, hused, hcm]
  · intro f g st3 u2 s2 e2 st4 h2
    obtain ⟨-, -, he2, -, r2, hfind2, hu2, hn2, -, -, hst2⟩ :=
      validate_code_ret_true ext f g st3 st4 u2 s2 e2 h2
    have hupd2 := getByName_update st3 u2 (nameOf s2) r2 hfind2
    refine ⟨he2, hst2, { r2 with used := true }, ?_, hu2, hn2, rfl⟩
    rw [hst2]
    exact getByName_mem _ u2 (nameOf s2) _ hupd2

/-- Witness for the amended C6: the concrete matching setup with a failing
update returns (false, storeFail). -/
theorem validate_code_update_fail_spec_witness :
    validateCode extC none (some GoErr.storeFail) st0W "u" "a b c d"
      = GoRes.ret ((false, some GoErr.storeFail), st0W) :=
  (validate_code_update_fail_spec extC st0W "u" "a b c d" ⟨"u", "a b c", "#5", false⟩
    GoErr.storeFail (by decide) (by decide) rfl (by decide)).1

/-! Claim C2. -/

/-- C2 counterexample: a concrete run on which CreateCodes succeeds while
the five returned code values coincide (so they are not pairwise distinct),
and the first entry's code is not the space-joined name phrase followed by
the secret phrase (the code field carries the secret phrase alone). -/
theorem create_codes_counterexample :
    createCodes extC C2o C2env [] "u" = Except.ok (C2keysVal, C2stVal) ∧
    ¬ (C2keysVal.map BackupKey.code).Nodup ∧
    (C2keysVal.map BackupKey.name).get? 0 = some "1.0.0" ∧
    (C2keysVal.map BackupKey.code).get? 0 ≠ some ("1.0.0" ++ " " ++ C2code) :=
  ⟨by rfl, by decide, by decide, by decide⟩

/-- C2 amended: when CreateCodes succeeds it returns exactly 5 entries with
pairwise-distinct names, each persisted via the Storer as an unused record
of the user carrying the entry's name and hash; each entry's code is the
mnemonic phrase of its secret buffer alone (whose hash is the entry's
hash), the name phrase being returned separately, and distinct code values
are not guaranteed. -/
theorem create_codes_ok_spec (ext : Ext) (o : RandOracle) (env : Nat → Option GoErr)
    (st : StoreState) (u : String) (keys : List BackupKey) (st2 : StoreState)
    (h : createCodes ext o env st u = Except.ok (keys, st2)) :
    keys.length = numRecoveryKeys ∧
    (keys.map BackupKey.name).Nodup ∧
    (∀ k ∈ keys, (⟨u, k.name, k.hash, false⟩ : CodeRec) ∈ st2) ∧
    (∀ k ∈ keys, ∃ sb, ext.toPhrase sb = Except.ok k.code ∧
      ext.bcryptHash sb backupHashRounds = Except.ok k.hash) := by
  obtain ⟨hg, ha⟩ := createCodes_ok ext o env st u keys st2 h
  obtain ⟨hlen, hphrase⟩ := genKeysAux_ok ext o numRecoveryKeys 0 keys hg
  refine ⟨hlen, addKeys_ok_nodup env u keys st 0 st2 ha, ?_, hphrase⟩
  intro k hk
  rw [addKeys_ok_append env u keys st 0 st2 ha]
  exact List.mem_append_right st (List.mem_map.mpr ⟨k, hk, rfl⟩)

/-- Witness for the amended C2: the concrete successful run returns five
keys with pairwise-distinct names. -/
theorem create_codes_ok_spec_witness :
    C2keysVal.length = numRecoveryKeys ∧ (C2keysVal.map BackupKey.name).Nodup :=
  ⟨(create_codes_ok_spec extC C2o C2env [] "u" C2keysVal C2stVal (by rfl)).1,
   (create_codes_ok_spec extC C2o C2env [] "u" C2keysVal C2stVal (by rfl)).2.1⟩

/-! Claim C10. -/

/-- C10 counterexample: an interleaving of two concurrent ValidateCode
executions of the same fresh code (both fetch before either writes) in
which both calls return true, because the source validates and updates in
two separate store operations with no conditional write: the claimed
exactly-one-winner outcome does not hold on this schedule. -/
theorem validate_race_counterexample :
    runSched extC "u" (nameOf "a b c d") (keyOf extC "a b c d")
      [true, false, true, false] (TState.start, TState.start, st0W)
      = (TState.done true, TState.done true, st1W) := by
  decide

/-- C10 amended: when the two store interactions of each call are serialized
(one call completes before the other starts), a fresh matching code yields
exactly one true and one false result; exactly-one-winner under arbitrary
interleavings would require the Storer update to be conditional on the used
flag, which the source does not implement. -/
theorem validate_race_serialized (ext : Ext) (st : StoreState) (u name : String)
    (key : List Nat) (r : CodeRec)
    (hfind : getBackupCodeByName st u name = some r)
    (hused : r.used = false)
    (hcm : ext.bcryptCompare r.hashedSecret key = none) :
    runSched ext u name key [true, true, false, false] (TState.start, TState.start, st)
      = (TState.done true, TState.done false, updateBackupCode st u name) := by
  have hn := (getByName_fields st u name r hfind).2
  have s1 : vcStep ext u name key TState.start st = (TState.fetched (some r), st) := by
    simp [vcStep, hfind]
  have s2 : vcStep ext u name key (TState.fetched (some r)) st
      = (TState.done true, updateBackupCode st u name) := by
    simp [vcStep, hn, hused, hcm]
  have s3 : vcStep ext u name key TState.start (updateBackupCode st u name)
      = (TState.fetched (some { r with used := true }), updateBackupCode st u name) := by
    simp [vcStep, getByName_update st u name r hfind]
  have s4 : vcStep ext u name key (TState.fetched (some { r with used := true }))
      (updateBackupCode st u name) = (TState.done false, updateBackupCode st u name) := by
    simp [vcStep]
  simp [runSched, s1, s2, s3, s4]

/-- Witness for the amended C10: the concrete serialized run consumes the
fresh code once and the second call observes it used. -/
theorem validate_race_serialized_witness :
    runSched extC "u" "a b c" [5] [true, true, false, false]
      (TState.start, TState.start, st0W)
      = (TState.done true, TState.done false, updateBackupCode st0W "u" "a b c") :=
  validate_race_serialized extC st0W "u" "a b c" [5] ⟨"u", "a b c", "#5", false⟩
    (by decide) rfl (by decide)

end AuthPlz
